import Mathlib

/-!
Verification of the Memory Graph & Retrieval Engine
(openclaw-memory-upgrade, `src/scripts/`).

The Python scripts are shallowly embedded: pure text/score/graph logic is
translated into executable Lean functions, file-system and network I/O are
replaced by explicit parameters (the loaded index, the edge list, the
candidate documents, the outcome of the external semantic-search request),
Python floats become exact rationals or reals, and Python's stable
`list.sort` becomes `List.insertionSort` (both are stable sorts, so they
agree on every input for a total transitive preorder).
-/

namespace MemoryUpgrade

/-! ## Deduplication engine — `src/scripts/memory-dedup.py`

`normalize_text` (lines 20-30) lowercases, collapses runs of whitespace in
the stripped text to single spaces, deletes the characters `.!?,;:`, deletes
the stop words `a an the in on at to for of with by` when they occur as
whole words (the regex `\b(...)\b` matches exactly the maximal word-character
runs equal to a stop word), and finally strips the result. -/

/-- The punctuation characters removed by `re.sub(r'[.!?,;:]+', '', text)`. -/
def punctChars : List Char := ['.', '!', '?', ',', ';', ':']

/-- The fixed stop-word set of `memory-dedup.py` line 29. -/
def stopWords : List String :=
  ["a", "an", "the", "in", "on", "at", "to", "for", "of", "with", "by"]

/-- Python regex word character (`\w`) restricted to ASCII: letters, digits, underscore. -/
def isWordChar (c : Char) : Bool := c.isAlphanum || c == '_'

/-- Python `str.strip()`: drop leading and trailing whitespace. -/
def stripChars (l : List Char) : List Char :=
  ((l.dropWhile Char.isWhitespace).reverse.dropWhile Char.isWhitespace).reverse

/-- Python `str.lower()` (ASCII fragment). -/
def pyLower (s : String) : String := String.mk (s.data.map Char.toLower)

/-- `re.sub(r'\s+', ' ', ·)`: each maximal whitespace run becomes one space. -/
def collapseWS : List Char → List Char
  | [] => []
  | [c] => if c.isWhitespace then [' '] else [c]
  | c1 :: c2 :: rest =>
    if c1.isWhitespace then
      if c2.isWhitespace then collapseWS (c2 :: rest)
      else ' ' :: collapseWS (c2 :: rest)
    else c1 :: collapseWS (c2 :: rest)

/-- A completed word-character run: dropped when it is a stop word. -/
def flushWord (w : List Char) : List Char :=
  if String.mk w ∈ stopWords then [] else w

/-- `re.sub(r'\b(a|an|the|in|on|at|to|for|of|with|by)\b', '', ·)`:
walk the text, collect maximal word-character runs (accumulator `acc`,
reversed), erase the runs that are stop words, keep everything else. -/
def removeStopwordsAux : List Char → List Char → List Char
  | acc, [] => flushWord acc.reverse
  | acc, c :: cs =>
    if isWordChar c then removeStopwordsAux (c :: acc) cs
    else flushWord acc.reverse ++ c :: removeStopwordsAux [] cs

/-- `normalize_text` of `memory-dedup.py` lines 20-30. -/
def normalize_text (text : String) : String :=
  let lowered := (pyLower text).data
  let collapsed := collapseWS (stripChars lowered)
  let nopunct := collapsed.filter (fun c => !(punctChars.contains c))
  let nostop := removeStopwordsAux [] nopunct
  String.mk (stripChars nostop)

/-- `get_content_hash` (lines 32-35): SHA-256 of the normalized text.
The cryptographic digest is abstracted as a parameter `h`; every property
proved below holds for the actual SHA-256 instantiation. -/
def get_content_hash (h : String → String) (text : String) : String :=
  h (normalize_text text)

/-- One value of the persisted hash index (`.memory-hashes.json`). -/
structure IndexEntry where
  first_seen : String
  source : Option String
  normalized : String
deriving DecidableEq

/-- The `'normalized'` preview stored by `add_to_index` (line 70-ish):
`normalize_text(content)[:100] + "..."` when the normalized text is longer
than 100 characters, else the whole normalized text. -/
def normalizedPreview (content : String) : String :=
  let n := normalize_text content
  if 100 < n.length then n.take 100 ++ "..." else n

/-- Python `dict[key] = value`: replace the binding in place if the key is
present, otherwise append it. -/
def dictInsert (k : String) (v : IndexEntry) :
    List (String × IndexEntry) → List (String × IndexEntry)
  | [] => [(k, v)]
  | (k', v') :: rest =>
    if k' = k then (k, v) :: rest else (k', v') :: dictInsert k v rest

/-- `add_to_index` (lines 64-76).  The hash index is passed explicitly (the
script loads it from disk when the argument is absent); `now` stands for
`datetime.now().isoformat()`.  Note that the entry is written
unconditionally: an existing entry for the same fingerprint is replaced. -/
def add_to_index (h : String → String) (content : String)
    (source_file : Option String) (now : String)
    (hash_index : List (String × IndexEntry)) :
    List (String × IndexEntry) × String :=
  let content_hash := get_content_hash h content
  (dictInsert content_hash ⟨now, source_file, normalizedPreview content⟩ hash_index,
   content_hash)

/-- Result record of `check_content` (lines 78-94). -/
structure CheckResult where
  is_duplicate : Bool
  hash : String
  first_seen : Option String
  original_source : Option (Option String)
deriving DecidableEq

/-- `check_content` (lines 78-94); the loaded hash index is a parameter. -/
def check_content (h : String → String) (content : String)
    (hash_index : List (String × IndexEntry)) : CheckResult :=
  let content_hash := get_content_hash h content
  match hash_index.lookup content_hash with
  | some e => ⟨true, content_hash, some e.first_seen, some e.source⟩
  | none => ⟨false, content_hash, none, none⟩

/-! ## Salience scorer — `src/scripts/salience-decay.py`

`calculate_recency_weight` (lines 18-36) parses `last_accessed_date` and
computes `days_ago = (now - last_accessed).days`; a parse failure
(`ValueError`/`TypeError`) yields the fixed default weight `0.1`.  The
embedding abstracts the date handling into an `Option ℤ`: `none` is an
unparsable date, `some d` a date that lies `d` days in the past (negative
for future dates).  Python's float arithmetic is idealized as `ℝ`. -/

/-- `calculate_recency_weight` (lines 18-36). -/
noncomputable def calculate_recency_weight : Option ℤ → ℤ → ℝ
  | none, _ => 0.1
  | some days_ago, max_days =>
    if max_days ≤ days_ago then 0
    else Real.exp (-(days_ago : ℝ) / ((max_days : ℝ) / 3))

/-- `calculate_salience_score` (lines 38-43):
`recency_weight(lastAccessed) * log(accessCount + 1)` with the default
`max_days = 365`. -/
noncomputable def calculate_salience_score (daysAgo : Option ℤ) (access_count : ℕ) : ℝ :=
  calculate_recency_weight daysAgo 365 * Real.log ((access_count : ℝ) + 1)

/-! ## Relationship graph — `src/scripts/cross-ref.py`

Relationships are the records persisted in `patterns.json`; the graph and
reverse graph of `build_relationship_graph` (lines 167-195) are the edge
list filtered by source resp. target node, in list order (the Python code
appends to per-node adjacency lists while scanning the edge list once). -/

/-- A relationship record (`patterns.json`): directed labeled edge. -/
structure Relationship where
  from_ : String
  to_ : String
  relation : String
  since : Option String
  source : Option String
deriving DecidableEq

/-- A connection record emitted by `traverse_connections` (the Python dict
also repeats the target under the key `'target'` for outbound records;
that duplicate of `to_` is omitted). -/
structure Connection where
  from_ : String
  to_ : String
  type : String
  relation : String
  since : Option String
  source : Option String
deriving DecidableEq

/-- Outbound adjacency of `build_relationship_graph`: edges leaving `x`. -/
def outEdges (edges : List Relationship) (x : String) : List Relationship :=
  edges.filter (fun e => e.from_ == x)

/-- Inbound adjacency (`reverse_graph`): edges entering `x`. -/
def inEdges (edges : List Relationship) (x : String) : List Relationship :=
  edges.filter (fun e => e.to_ == x)

/-- The body of the BFS loop of `traverse_connections` (lines 197-243),
with an explicit fuel so that the recursion is structural; `none` means the
fuel ran out (`traverseAuxF_isSome` below proves that the fuel chosen in
`traverse_connections` never runs out, i.e. the Python `while queue:` loop
terminates).  State: FIFO queue of `(entity, depth)` pairs, visited set
(modelled as the list of entities in visit order), and the accumulated
`(depth, connection)` records (the Python code buckets them in a
`defaultdict(list)` keyed by depth; the bucket of `d` is the sublist of
pairs with first component `d`, in emission order). -/
def traverseAuxF (edges : List Relationship) (max_depth : ℕ) (direction : String) :
    ℕ → List (String × ℕ) → List String → List (ℕ × Connection) →
    Option (List (ℕ × Connection) × List String)
  | 0, _, _, _ => none
  | _ + 1, [], visited, conns => some (conns, visited)
  | fuel + 1, (current, depth) :: rest, visited, conns =>
    if current ∈ visited ∨ max_depth < depth then
      traverseAuxF edges max_depth direction fuel rest visited conns
    else
      let visited' := visited ++ [current]
      let outs := if direction = "both" ∨ direction = "out"
                  then outEdges edges current else []
      let ins := if direction = "both" ∨ direction = "in"
                 then inEdges edges current else []
      let outConns := outs.map fun e =>
        (depth, Connection.mk current e.to_ "outbound" e.relation e.since e.source)
      let inConns := ins.map fun e =>
        (depth, Connection.mk e.from_ current "inbound" e.relation e.since e.source)
      let newOut := (outs.map Relationship.to_).filter (fun t => ¬ t ∈ visited')
      let newIn := (ins.map Relationship.from_).filter (fun s => ¬ s ∈ visited')
      traverseAuxF edges max_depth direction fuel
        (rest ++ (newOut ++ newIn).map (fun n => (n, depth + 1)))
        visited' (conns ++ outConns ++ inConns)

/-- Fuel that provably suffices for `traverseAuxF` started on one node:
`(2E+1)` bounds the number of distinct entities ever enqueued and each
visit strictly shrinks the unvisited-entity count, so
`(2E+1)*(2E+1) + 2` bounds the number of loop iterations. -/
def initFuel (edges : List Relationship) : ℕ :=
  (2 * edges.length + 1) * (2 * edges.length + 1) + 2

/-- `traverse_connections(entity_key, max_depth, direction)` (lines
197-243), with the persisted edge list as an explicit argument.  Returns
the emitted `(depth, connection)` records; the `none` branch is dead code
by `traverseAuxF_isSome`. -/
def traverse_connections (edges : List Relationship) (entity_key : String)
    (max_depth : ℕ) (direction : String) : List (ℕ × Connection) :=
  match traverseAuxF edges max_depth direction (initFuel edges)
      [(entity_key, 0)] [] [] with
  | some (conns, _) => conns
  | none => []

/-- The visited set (in visit order) produced by the same traversal. -/
def traverse_visited (edges : List Relationship) (entity_key : String)
    (max_depth : ℕ) (direction : String) : List String :=
  match traverseAuxF edges max_depth direction (initFuel edges)
      [(entity_key, 0)] [] [] with
  | some (_, visited) => visited
  | none => []

/-- `add_relationship` (lines 245-274): no-op returning `false` when an
edge with the same `(from, to, relation)` triple exists, otherwise append
`{from, to, relation, since}` and return `true` (the persistence step
`save_patterns` is abstracted as succeeding; `since` is the caller's value,
defaulted by the script to today's date). -/
def add_relationship (patterns : List Relationship)
    (from_entity to_entity relation since : String) :
    List Relationship × Bool :=
  if patterns.any (fun ex =>
      ex.from_ == from_entity && ex.to_ == to_entity && ex.relation == relation) then
    (patterns, false)
  else
    (patterns ++ [⟨from_entity, to_entity, relation, some since, none⟩], true)

/-! Reachability: `reachN edges direction start n x` decides whether `x`
is reachable from `start` in at most `n` traversal steps, where one step
follows an edge forward when `direction` includes `out` and backward when
it includes `in`.  "Shortest-path distance from `start` is at most `n`"
is exactly `reachN ... n x = true`. -/

/-- Bounded reachability along the traversal's step relation. -/
def reachN (edges : List Relationship) (direction start : String) :
    ℕ → String → Bool
  | 0, x => x == start
  | n + 1, x =>
    reachN edges direction start n x ||
    edges.any (fun e =>
      ((direction == "both" || direction == "out") && e.to_ == x &&
        reachN edges direction start n e.from_) ||
      ((direction == "both" || direction == "in") && e.from_ == x &&
        reachN edges direction start n e.to_))

/-! Termination measure for the BFS loop (used only in proofs):
`(unvisited candidate entities) * (2E+1) + queue length`. -/

/-- All entities occurring in the edge list. -/
def nodesOf (edges : List Relationship) : Finset String :=
  (edges.map Relationship.from_ ++ edges.map Relationship.to_).toFinset

/-- Entities currently in the queue. -/
def queueNodes (q : List (String × ℕ)) : Finset String :=
  (q.map Prod.fst).toFinset

/-- Loop measure: every iteration of `traverseAuxF` strictly decreases it. -/
def travM (edges : List Relationship) (q : List (String × ℕ))
    (visited : List String) : ℕ :=
  ((nodesOf edges ∪ queueNodes q) \ visited.toFinset).card
    * (2 * edges.length + 1) + q.length

/-! ## Retrieval fusion — `src/scripts/hybrid-search.py`

The keyword path walks entity `items.json` facts, `summary.md` files and
daily notes; that file-system walk is abstracted into an ordered list of
candidate documents, each carrying the text that gets scored (`text`, the
raw text before the `.lower()` applied at the call sites) and the fields
the walk would store in the result record (`content` is `item['fact']` for
facts and the extracted snippet for summaries/notes). -/

/-- A candidate document of the keyword path. -/
structure KWDoc where
  type : String
  entity : String
  content : String
  text : String
  timestamp : String
  category : String
  source : String
deriving DecidableEq

/-- A search result record.  `final_score` and `search_type` are the keys
added by `hybrid_search`; the two search paths produce them as `0` / `""`. -/
structure SearchResult where
  type : String
  entity : String
  content : String
  score : ℚ
  timestamp : String
  category : String
  source : String
  final_score : ℚ
  search_type : String
deriving DecidableEq

/-- Python substring test `needle in haystack`. -/
def isSubstr (needle haystack : List Char) : Bool :=
  (List.range (haystack.length + 1)).any (fun i => needle.isPrefixOf (haystack.drop i))

/-- Python `str.split()`: split on whitespace runs, dropping empty pieces;
`acc` accumulates the current word reversed. -/
def splitWsAux : List Char → List Char → List String
  | acc, [] => if acc = [] then [] else [String.mk acc.reverse]
  | acc, c :: cs =>
    if c.isWhitespace then
      (if acc = [] then [] else [String.mk acc.reverse]) ++ splitWsAux [] cs
    else splitWsAux (c :: acc) cs

/-- Python `str.split()` with no separator argument. -/
def pySplit (s : String) : List String := splitWsAux [] s.data

/-- `_calculate_keyword_score` (lines 129-147).  Exact phrase match scores
`1.0`; otherwise `min(exact_fraction + 0.5 * partial_fraction, 1.0)` where
the fractions count query words occurring verbatim in the text resp. as a
substring of some text word.  Python float arithmetic is modelled by `ℚ`. -/
def calculate_keyword_score (text query : String) : ℚ :=
  let query_words := pySplit query
  let exact_matches : ℕ :=
    (query_words.filter (fun w => isSubstr w.data text.data)).length
  let text_words := pySplit text
  let partial_matches : ℕ :=
    (query_words.filter (fun w =>
      text_words.any (fun tw => isSubstr w.data tw.data))).length
  if isSubstr query.data text.data then 1
  else if query_words.length = 0 then 0
  else min ((exact_matches : ℚ) / query_words.length
            + (partial_matches : ℚ) / query_words.length * (1 / 2)) 1

/-- The matching results collected by `keyword_search` (lines 31-52) before
sorting: score each document's lowercased text against the lowercased
query and keep the records with positive score, in walk order. -/
def keyword_matches (docs : List KWDoc) (query : String) : List SearchResult :=
  let query_lower := pyLower query
  docs.filterMap (fun d =>
    let s := calculate_keyword_score (pyLower d.text) query_lower
    if 0 < s then
      some ⟨d.type, d.entity, d.content, s, d.timestamp, d.category, d.source, 0, ""⟩
    else none)

/-- The sort order of `results.sort(key=lambda x: (-x['score'],
x['timestamp']), reverse=True)` (line 53): a stable sort descending by the
key `(-score, timestamp)`, i.e. ascending by score and, among equal
scores, descending by timestamp. -/
def keywordSortLE (a b : SearchResult) : Prop :=
  a.score < b.score ∨ (a.score = b.score ∧ b.timestamp ≤ a.timestamp)

instance : DecidableRel keywordSortLE := fun a b => by
  unfold keywordSortLE; infer_instance

instance : IsTotal SearchResult keywordSortLE where
  total a b := by
    unfold keywordSortLE
    rcases lt_trichotomy a.score b.score with h | h | h
    · exact Or.inl (Or.inl h)
    · rcases le_total b.timestamp a.timestamp with ht | ht
      · exact Or.inl (Or.inr ⟨h, ht⟩)
      · exact Or.inr (Or.inr ⟨h.symm, ht⟩)
    · exact Or.inr (Or.inl h)

instance : IsTrans SearchResult keywordSortLE where
  trans a b c hab hbc := by
    unfold keywordSortLE at *
    rcases hab with h1 | ⟨h1, t1⟩
    · rcases hbc with h2 | ⟨h2, _⟩
      · exact Or.inl (h1.trans h2)
      · exact Or.inl (h2 ▸ h1)
    · rcases hbc with h2 | ⟨h2, t2⟩
      · exact Or.inl (h1 ▸ h2)
      · exact Or.inr ⟨h1.trans h2, t2.trans t1⟩

/-- `keyword_search` (lines 31-55): collect matches, sort, truncate. -/
def keyword_search (docs : List KWDoc) (query : String) (limit : ℕ) :
    List SearchResult :=
  (List.insertionSort keywordSortLE (keyword_matches docs query)).take limit

/-- One hit returned by the external claude-mem semantic-search service. -/
structure VectorItem where
  source : String
  content : String
  score : ℚ
  timestamp : String
  id : String
deriving DecidableEq

/-- Outcome of the synchronous request `vector_search` issues: the network
errors Python raises (`URLError`/`HTTPError`), the socket timeout, a
response that fails JSON decoding, or a well-formed result list. -/
inductive VectorOutcome where
  | networkError
  | timeout
  | malformedResponse
  | success (items : List VectorItem)
deriving DecidableEq

/-- `vector_search` (lines 173-211).  Returns `[]` when the service is
disabled (`CLAUDE_MEM_ENABLED`), and `[]` on every failure outcome (the
`except` clause catches all exceptions); on success each hit is mapped
into the local result shape with the content truncated to 300 characters.
The `limit` is only forwarded to the external service. -/
def vector_search (claude_mem_enabled : Bool) (outcome : VectorOutcome)
    (_query : String) (_limit : ℕ) : List SearchResult :=
  if !claude_mem_enabled then []
  else
    match outcome with
    | .success items =>
      items.map (fun it =>
        ⟨"vector_match", it.source, it.content.take 300, it.score,
         it.timestamp, "semantic", "claude-mem#" ++ it.id, 0, ""⟩)
    | _ => []

/-- The combined list `all_results` of `hybrid_search` (lines 219-230):
vector results first, each with `final_score = score * vector_weight` and
`search_type = 'vector'`, then keyword results with
`final_score = score * keyword_weight` and `search_type = 'keyword'`. -/
def tag_results (vector_weight keyword_weight : ℚ)
    (vector_results keyword_results : List SearchResult) : List SearchResult :=
  vector_results.map (fun r =>
    { r with final_score := r.score * vector_weight, search_type := "vector" }) ++
  keyword_results.map (fun r =>
    { r with final_score := r.score * keyword_weight, search_type := "keyword" })

/-- The dedup key of `_deduplicate_results` (line 249):
`result['content'].lower().strip()[:100]`. -/
def contentKey (r : SearchResult) : String :=
  String.mk ((stripChars (r.content.data.map Char.toLower)).take 100)

/-- Loop of `_deduplicate_results` (lines 242-255) with its `seen_content`
set made explicit. -/
def deduplicate_results_aux : List SearchResult → List String → List SearchResult
  | [], _ => []
  | r :: rest, seen =>
    if contentKey r ∈ seen then deduplicate_results_aux rest seen
    else r :: deduplicate_results_aux rest (contentKey r :: seen)

/-- `_deduplicate_results` (lines 242-255): keep the first occurrence of
every content key. -/
def deduplicate_results (results : List SearchResult) : List SearchResult :=
  deduplicate_results_aux results []

/-- The sort order of `unique_results.sort(key=lambda x: x['final_score'],
reverse=True)` (line 237): descending final score, stable. -/
def hybridSortLE (a b : SearchResult) : Prop := b.final_score ≤ a.final_score

instance : DecidableRel hybridSortLE := fun a b => by
  unfold hybridSortLE; infer_instance

instance : IsTotal SearchResult hybridSortLE where
  total a b := le_total b.final_score a.final_score

instance : IsTrans SearchResult hybridSortLE where
  trans _ _ _ hab hbc := le_trans hbc hab

/-- `hybrid_search` (lines 213-240) with the two path outputs as explicit
arguments: tag and weight both lists, deduplicate by content key, sort by
final score descending, truncate to `limit`. -/
def hybrid_search (vector_weight keyword_weight : ℚ)
    (vector_results keyword_results : List SearchResult) (limit : ℕ) :
    List SearchResult :=
  (List.insertionSort hybridSortLE
    (deduplicate_results
      (tag_results vector_weight keyword_weight vector_results keyword_results))).take
    limit

/-- `hybrid_search` composed with its two callees exactly as in lines
215-217: both paths are asked for `limit * 2` results. -/
def hybrid_search_full (claude_mem_enabled : Bool) (outcome : VectorOutcome)
    (docs : List KWDoc) (query : String) (limit : ℕ)
    (vector_weight keyword_weight : ℚ) : List SearchResult :=
  hybrid_search vector_weight keyword_weight
    (vector_search claude_mem_enabled outcome query (limit * 2))
    (keyword_search docs query (limit * 2)) limit

/-! ## Statement-side definitions and sample inputs -/

/-- Invariant of the records emitted by the traversal: a record emitted
while expanding a node at BFS depth `d` has `d ≤ max_depth`, its expanded
endpoint reachable within `d` steps and its other endpoint within `d + 1`
steps. -/
def ConnOK (edges : List Relationship) (direction start : String)
    (max_depth d : ℕ) (c : Connection) : Prop :=
  d ≤ max_depth ∧
  ((c.type = "outbound" ∧ reachN edges direction start d c.from_ = true ∧
      reachN edges direction start (d + 1) c.to_ = true) ∨
   (c.type = "inbound" ∧ reachN edges direction start d c.to_ = true ∧
      reachN edges direction start (d + 1) c.from_ = true))

/-- The two-node cycle `A → B → A` of the termination test. -/
def cycleEdges : List Relationship :=
  [⟨"A", "B", "knows", none, none⟩, ⟨"B", "A", "knows", none, none⟩]

/-- The chain `A → B → C` used to exhibit the depth-bound off-by-one. -/
def chainEdges : List Relationship :=
  [⟨"A", "B", "knows", none, none⟩, ⟨"B", "C", "knows", none, none⟩]

/-- A keyword-path result with raw score `1.0`. -/
def sampleK : SearchResult :=
  ⟨"entity_fact", "acme", "Keyword fact about acme", 1, "2026-01-01",
   "general", "acme/items.json#1", 0, ""⟩

/-- A vector-path result with raw score `0.5`. -/
def sampleV : SearchResult :=
  ⟨"vector_match", "claude-mem", "Vector memory about acme", 1/2, "",
   "semantic", "claude-mem#7", 0, ""⟩

/-- A document matching the query `"acme corp"` exactly (score `1.0`). -/
def sampleDocA : KWDoc :=
  ⟨"entity_fact", "acme", "acme corp", "acme corp", "2026-01-02",
   "general", "acme/items.json#1"⟩

/-- A document matching the query `"acme corp"` partially (score `3/4`). -/
def sampleDocB : KWDoc :=
  ⟨"entity_fact", "acme", "acme only here", "acme only here", "2026-01-01",
   "general", "acme/items.json#2"⟩

/-! ## Theorems: deduplication engine (claims C1, C9) -/

/-- **C9** — `normalize_text` lowercases, collapses whitespace, strips
punctuation and removes the fixed article/preposition stop-word set
(the pipeline is the definition of `normalize_text` above, embedded from
`memory-dedup.py` lines 20-30); in particular the two spec texts
normalize identically — both become `"met  john smith"` (`with` is itself
a stop word) — and therefore receive the same fingerprint for every hash
function, in particular for SHA-256. -/
theorem C9_normalization_invariance :
    normalize_text "Met with John Smith." = normalize_text "met with   john smith" ∧
    (∀ h : String → String,
      get_content_hash h "Met with John Smith." =
        get_content_hash h "met with   john smith") ∧
    normalize_text "The  Cat!" = normalize_text "the cat" := by
  refine ⟨by decide, ?_, by decide⟩
  intro h
  unfold get_content_hash
  have : normalize_text "Met with John Smith." =
      normalize_text "met with   john smith" := by decide
  rw [this]

/-- **C1 counterexample** — the claim "the second registration leaves the
original entry's `firstSeen` and `source` fields unchanged" is false:
`add_to_index` overwrites the entry unconditionally.  Registering
`"Hello World"` from source `s1` at time `t1` and then the variant
`"hello world!"` from source `s2` at time `t2` (same fingerprint, hash
instantiated with `id`) leaves the single entry carrying `t2`/`s2`,
not the original `t1`/`s1`. -/
theorem C1_counterexample :
    ((add_to_index id "hello world!" (some "s2") "t2"
        (add_to_index id "Hello World" (some "s1") "t1" []).1).1.lookup
      (get_content_hash id "hello world!") =
        some ⟨"t2", some "s2", "hello world"⟩) ∧
    ¬ ((add_to_index id "hello world!" (some "s2") "t2"
        (add_to_index id "Hello World" (some "s1") "t1" []).1).1.lookup
      (get_content_hash id "hello world!") =
        some ⟨"t1", some "s1", "hello world"⟩) := by
  constructor
  · decide
  · decide

/-- **C1 amended** — for every hash function and every pair of texts with
the same normalization (any casing/punctuation variant), registering both
(starting from an empty index) yields exactly one index entry, and
`check_content` reports `is_duplicate = true` after the first
registration; but the second registration *overwrites* the entry's
`first_seen` and `source` with the second call's values instead of
leaving the original ones untouched. -/
theorem C1_register_twice (h : String → String) (t1 t2 : String)
    (s1 s2 : Option String) (n1 n2 : String)
    (hnorm : normalize_text t1 = normalize_text t2) :
    (add_to_index h t2 s2 n2 (add_to_index h t1 s1 n1 []).1).1.length = 1 ∧
    (check_content h t2 (add_to_index h t1 s1 n1 []).1).is_duplicate = true ∧
    (add_to_index h t2 s2 n2 (add_to_index h t1 s1 n1 []).1).1.lookup
        (get_content_hash h t2) = some ⟨n2, s2, normalizedPreview t2⟩ := by
  have hkey : get_content_hash h t1 = get_content_hash h t2 := by
    unfold get_content_hash
    rw [hnorm]
  refine ⟨?_, ?_, ?_⟩
  · simp [add_to_index, dictInsert, hkey]
  · simp [check_content, add_to_index, dictInsert, hkey, List.lookup]
  · simp [add_to_index, dictInsert, hkey, List.lookup]

/-- Witness for `C1_register_twice` at the concrete counterexample input. -/
theorem C1_register_twice_witness :
    normalize_text "Hello World" = normalize_text "hello world!" ∧
    ((add_to_index id "hello world!" (some "s2") "t2"
        (add_to_index id "Hello World" (some "s1") "t1" []).1).1.length = 1 ∧
     (check_content id "hello world!"
        (add_to_index id "Hello World" (some "s1") "t1" []).1).is_duplicate = true ∧
     (add_to_index id "hello world!" (some "s2") "t2"
        (add_to_index id "Hello World" (some "s1") "t1" []).1).1.lookup
          (get_content_hash id "hello world!") =
        some ⟨"t2", some "s2", normalizedPreview "hello world!"⟩) :=
  ⟨by decide,
   C1_register_twice id "Hello World" "hello world!" (some "s1") (some "s2")
     "t1" "t2" (by decide)⟩

/-! ## Theorems: salience scorer (claims C7, C8) -/

/-- The recency weight is never negative (it is `0`, `0.1`, or an
exponential). -/
theorem calculate_recency_weight_nonneg (l : Option ℤ) (md : ℤ) :
    0 ≤ calculate_recency_weight l md := by
  match l with
  | none => rw [calculate_recency_weight]; norm_num
  | some d =>
    rw [calculate_recency_weight]
    by_cases hd : md ≤ d
    · rw [if_pos hd]
    · rw [if_neg hd]
      exact (Real.exp_pos _).le

/-- The recency weight is antitone in the age. -/
theorem calculate_recency_weight_antitone {d1 d2 : ℤ} (hle : d1 ≤ d2) :
    calculate_recency_weight (some d2) 365 ≤ calculate_recency_weight (some d1) 365 := by
  rw [calculate_recency_weight, calculate_recency_weight]
  by_cases h2 : (365 : ℤ) ≤ d2
  · rw [if_pos h2]
    by_cases h1 : (365 : ℤ) ≤ d1
    · rw [if_pos h1]
    · rw [if_neg h1]
      exact (Real.exp_pos _).le
  · have h1 : ¬ (365 : ℤ) ≤ d1 := fun h => h2 (h.trans hle)
    rw [if_neg h2, if_neg h1]
    apply Real.exp_le_exp.2
    have hcast : (((365 : ℤ) : ℝ)) = (365 : ℝ) := by norm_num
    rw [hcast]
    have hc : (0 : ℝ) < (365 : ℝ) / 3 := by norm_num
    rw [div_le_div_iff_of_pos_right hc]
    have : (d1 : ℝ) ≤ (d2 : ℝ) := by exact_mod_cast hle
    linarith

/-- **C7** — the salience score is
`recency_weight(lastAccessed) * ln(accessCount + 1)` where the recency
weight is `0` once the age reaches `365` days and
`exp(-days / (365/3))` before that (hence `1.0` at age zero); an
unparsable `lastAccessed` yields the fixed default weight `0.1`; and
`accessCount = 0` makes the whole score `0` for every `lastAccessed`. -/
theorem C7_salience_formula :
    (∀ d : ℤ, 365 ≤ d → calculate_recency_weight (some d) 365 = 0) ∧
    (∀ d : ℤ, d < 365 →
      calculate_recency_weight (some d) 365 =
        Real.exp (-(d : ℝ) / ((365 : ℝ) / 3))) ∧
    calculate_recency_weight (some 0) 365 = 1 ∧
    calculate_recency_weight none 365 = 0.1 ∧
    (∀ l : Option ℤ, calculate_salience_score l 0 = 0) ∧
    (∀ (l : Option ℤ) (c : ℕ),
      calculate_salience_score l c =
        calculate_recency_weight l 365 * Real.log ((c : ℝ) + 1)) := by
  refine ⟨?_, ?_, ?_, rfl, ?_, fun l c => rfl⟩
  · intro d hd
    rw [calculate_recency_weight, if_pos hd]
  · intro d hd
    rw [calculate_recency_weight, if_neg (not_le.2 hd)]
    norm_num
  · show calculate_recency_weight (some 0) 365 = 1
    rw [calculate_recency_weight, if_neg (by norm_num)]
    norm_num
  · intro l
    unfold calculate_salience_score
    norm_num

/-- Witness for `C7_salience_formula` at concrete ages `400` and `10`. -/
theorem C7_salience_formula_witness :
    ((365 : ℤ) ≤ 400 ∧ calculate_recency_weight (some 400) 365 = 0) ∧
    ((10 : ℤ) < 365 ∧ calculate_recency_weight (some 10) 365 =
      Real.exp (-(10 : ℤ) / ((365 : ℝ) / 3))) :=
  ⟨⟨by decide, C7_salience_formula.1 400 (by decide)⟩,
   ⟨by decide, C7_salience_formula.2.1 10 (by decide)⟩⟩

/-- **C8** — for a fixed parseable `lastAccessed` (age `d` days) the
salience score is non-decreasing in `accessCount`, and for a fixed
`accessCount > 0` it is non-increasing as the age grows, including across
the 365-day cutoff where the recency weight drops to `0`. -/
theorem C8_salience_monotonicity :
    (∀ (d : ℤ) (c1 c2 : ℕ), c1 ≤ c2 →
      calculate_salience_score (some d) c1 ≤ calculate_salience_score (some d) c2) ∧
    (∀ c : ℕ, 0 < c → ∀ d1 d2 : ℤ, d1 ≤ d2 →
      calculate_salience_score (some d2) c ≤ calculate_salience_score (some d1) c) := by
  constructor
  · intro d c1 c2 hc
    unfold calculate_salience_score
    apply mul_le_mul_of_nonneg_left _ (calculate_recency_weight_nonneg _ _)
    apply Real.log_le_log (by positivity)
    have : (c1 : ℝ) ≤ (c2 : ℝ) := by exact_mod_cast hc
    linarith
  · intro c _hc d1 d2 hd
    unfold calculate_salience_score
    apply mul_le_mul_of_nonneg_right (calculate_recency_weight_antitone hd)
    apply Real.log_nonneg
    have : (0 : ℝ) ≤ (c : ℝ) := by positivity
    linarith

/-- Witness for `C8_salience_monotonicity` at age `10`, counts `2 ≤ 5`,
and count `3`, ages `100 ≤ 400`. -/
theorem C8_salience_monotonicity_witness :
    ((2 : ℕ) ≤ 5 ∧
      calculate_salience_score (some 10) 2 ≤ calculate_salience_score (some 10) 5) ∧
    ((0 : ℕ) < 3 ∧ (100 : ℤ) ≤ 400 ∧
      calculate_salience_score (some 400) 3 ≤ calculate_salience_score (some 100) 3) :=
  ⟨⟨by decide, C8_salience_monotonicity.1 10 2 5 (by decide)⟩,
   ⟨by decide, by decide,
    C8_salience_monotonicity.2 3 (by decide) 100 400 (by decide)⟩⟩

/-! ## Theorems: retrieval fusion (claims C3, C4, C10) -/

/-- The dedup loop returns a sublist of its input. -/
theorem deduplicate_results_aux_sublist :
    ∀ (l : List SearchResult) (seen : List String),
      List.Sublist (deduplicate_results_aux l seen) l := by
  intro l
  induction l with
  | nil => intro seen; rw [deduplicate_results_aux]
  | cons r rest ih =>
    intro seen
    rw [deduplicate_results_aux]
    by_cases h : contentKey r ∈ seen
    · rw [if_pos h]
      exact (ih seen).cons r
    · rw [if_neg h]
      exact (ih _).cons₂ r

/-- The dedup loop emits no key from `seen` and no key twice. -/
theorem deduplicate_results_aux_keys :
    ∀ (l : List SearchResult) (seen : List String),
      (∀ r ∈ deduplicate_results_aux l seen, contentKey r ∉ seen) ∧
      (deduplicate_results_aux l seen).Pairwise
        (fun a b => contentKey a ≠ contentKey b) := by
  intro l
  induction l with
  | nil => intro seen; simp [deduplicate_results_aux]
  | cons r rest ih =>
    intro seen
    rw [deduplicate_results_aux]
    by_cases h : contentKey r ∈ seen
    · rw [if_pos h]
      exact ih seen
    · rw [if_neg h]
      obtain ⟨hmem, hpw⟩ := ih (contentKey r :: seen)
      refine ⟨?_, ?_⟩
      · intro x hx
        rcases List.mem_cons.1 hx with rfl | hx
        · exact h
        · intro hxs
          exact hmem x hx (List.mem_cons_of_mem _ hxs)
      · refine List.Pairwise.cons ?_ hpw
        intro b hb heq
        exact hmem b hb (heq ▸ List.mem_cons_self _ _)

/-- Every input content key either was already seen or survives into the
dedup output (first occurrence wins). -/
theorem deduplicate_results_aux_covers :
    ∀ (l : List SearchResult) (seen : List String) (r : SearchResult), r ∈ l →
      contentKey r ∈ seen ∨
      ∃ r' ∈ deduplicate_results_aux l seen, contentKey r' = contentKey r := by
  intro l
  induction l with
  | nil => intro seen r hr; cases hr
  | cons x rest ih =>
    intro seen r hr
    rw [deduplicate_results_aux]
    by_cases h : contentKey x ∈ seen
    · rw [if_pos h]
      rcases List.mem_cons.1 hr with rfl | hr
      · exact Or.inl h
      · exact ih seen r hr
    · rw [if_neg h]
      rcases List.mem_cons.1 hr with heq | hr
      · exact Or.inr ⟨x, List.mem_cons_self _ _, heq ▸ rfl⟩
      · rcases ih (contentKey x :: seen) r hr with hmem | ⟨r', hr', hk⟩
        · rcases List.mem_cons.1 hmem with heq | hmem
          · exact Or.inr ⟨x, List.mem_cons_self _ _, heq.symm⟩
          · exact Or.inl hmem
        · exact Or.inr ⟨r', List.mem_cons_of_mem _ hr', hk⟩

/-- Fused output records all come from the tagged combined list. -/
theorem mem_tag_results_of_mem_hybrid {vw kw : ℚ} {vres kres : List SearchResult}
    {limit : ℕ} {r : SearchResult} (h : r ∈ hybrid_search vw kw vres kres limit) :
    r ∈ tag_results vw kw vres kres := by
  unfold hybrid_search at h
  have h1 := List.mem_of_mem_take h
  rw [List.mem_insertionSort] at h1
  unfold deduplicate_results at h1
  exact (deduplicate_results_aux_sublist _ _).subset h1

/-- Every tagged record carries its path tag and path-weighted score. -/
theorem tag_results_spec {vw kw : ℚ} {vres kres : List SearchResult}
    {r : SearchResult} (h : r ∈ tag_results vw kw vres kres) :
    (r.search_type = "vector" ∧ r.final_score = r.score * vw) ∨
    (r.search_type = "keyword" ∧ r.final_score = r.score * kw) := by
  unfold tag_results at h
  rcases List.mem_append.1 h with h | h
  · rcases List.mem_map.1 h with ⟨r0, _, rfl⟩
    exact Or.inl ⟨rfl, rfl⟩
  · rcases List.mem_map.1 h with ⟨r0, _, rfl⟩
    exact Or.inr ⟨rfl, rfl⟩

/-- **C3** — in `hybrid_search` every keyword-path record's final score is
its raw score times `keyword_weight` and every vector-path record's final
score is its raw score times `vector_weight`; the merged list is
deduplicated by the first 100 normalized characters of the content with
the first occurrence kept, sorted by final score descending and truncated
to `limit`; in particular, with weights `0.4` (keyword) / `0.6` (vector),
a keyword result of raw score `1.0` (final `0.4`) ranks above a vector
result of raw score `0.5` (final `0.3`). -/
theorem C3_fusion_ranking (vw kw : ℚ) (vres kres : List SearchResult) (limit : ℕ) :
    (∀ r ∈ hybrid_search vw kw vres kres limit,
      (r.search_type = "vector" ∧ r.final_score = r.score * vw) ∨
      (r.search_type = "keyword" ∧ r.final_score = r.score * kw)) ∧
    (hybrid_search vw kw vres kres limit).Pairwise hybridSortLE ∧
    (hybrid_search vw kw vres kres limit).Pairwise
      (fun a b => contentKey a ≠ contentKey b) ∧
    (hybrid_search vw kw vres kres limit).length ≤ limit ∧
    (∀ r ∈ tag_results vw kw vres kres,
      ∃ r' ∈ deduplicate_results (tag_results vw kw vres kres),
        contentKey r' = contentKey r) ∧
    hybrid_search 0.6 0.4 [sampleV] [sampleK] 10 =
      [{ sampleK with final_score := 2/5, search_type := "keyword" },
       { sampleV with final_score := 3/10, search_type := "vector" }] := by
  refine ⟨?_, ?_, ?_, ?_, ?_, ?_⟩
  · intro r hr
    exact tag_results_spec (mem_tag_results_of_mem_hybrid hr)
  · exact (List.sorted_insertionSort hybridSortLE _).sublist (List.take_sublist _ _)
  · have hpw := (deduplicate_results_aux_keys
      (tag_results vw kw vres kres) []).2
    have hperm := List.perm_insertionSort hybridSortLE
      (deduplicate_results (tag_results vw kw vres kres))
    have hpw2 := (hperm.pairwise_iff (fun hab => Ne.symm hab)).2 hpw
    exact hpw2.sublist (List.take_sublist _ _)
  · exact List.length_take_le _ _
  · intro r hr
    rcases deduplicate_results_aux_covers _ [] r hr with hmem | hc
    · cases hmem
    · exact hc
  · norm_num [hybrid_search, tag_results, deduplicate_results,
      deduplicate_results_aux, contentKey, stripChars, sampleK, sampleV,
      hybridSortLE, List.insertionSort, List.orderedInsert]

/-- Witness for `C3_fusion_ranking`: the concrete instance with one vector
result of raw score `0.5` and one keyword result of raw score `1.0`. -/
theorem C3_fusion_ranking_witness :
    ({ sampleK with final_score := 2/5, search_type := "keyword" } : SearchResult) ∈
      hybrid_search 0.6 0.4 [sampleV] [sampleK] 10 ∧
    ((({ sampleK with final_score := 2/5, search_type := "keyword" } : SearchResult).search_type = "vector" ∧
      ({ sampleK with final_score := 2/5, search_type := "keyword" } : SearchResult).final_score =
        ({ sampleK with final_score := 2/5, search_type := "keyword" } : SearchResult).score * 0.6) ∨
     (({ sampleK with final_score := 2/5, search_type := "keyword" } : SearchResult).search_type = "keyword" ∧
      ({ sampleK with final_score := 2/5, search_type := "keyword" } : SearchResult).final_score =
        ({ sampleK with final_score := 2/5, search_type := "keyword" } : SearchResult).score * 0.4)) := by
  have hmem : ({ sampleK with final_score := 2/5, search_type := "keyword" } : SearchResult) ∈
      hybrid_search 0.6 0.4 [sampleV] [sampleK] 10 := by
    rw [(C3_fusion_ranking 0.6 0.4 [sampleV] [sampleK] 10).2.2.2.2.2]
    exact List.mem_cons_self _ _
  exact ⟨hmem, (C3_fusion_ranking 0.6 0.4 [sampleV] [sampleK] 10).1 _ hmem⟩

/-- **C4** — the vector path returns `[]` (it never raises) when the
service is disabled and on every failure outcome (network error, timeout,
malformed response); consequently `hybrid_search` with the semantic
service disabled returns only keyword-path results, each tagged
`search_type = "keyword"`. -/
theorem C4_vector_failure_safe :
    (∀ (o : VectorOutcome) (q : String) (l : ℕ), vector_search false o q l = []) ∧
    (∀ (q : String) (l : ℕ),
      vector_search true .networkError q l = [] ∧
      vector_search true .timeout q l = [] ∧
      vector_search true .malformedResponse q l = []) ∧
    (∀ (o : VectorOutcome) (docs : List KWDoc) (q : String) (limit : ℕ) (vw kw : ℚ),
      ∀ r ∈ hybrid_search_full false o docs q limit vw kw,
        r.search_type = "keyword") := by
  refine ⟨fun o q l => rfl, fun q l => ⟨rfl, rfl, rfl⟩, ?_⟩
  intro o docs q limit vw kw r hr
  unfold hybrid_search_full at hr
  have h1 := mem_tag_results_of_mem_hybrid hr
  unfold tag_results at h1
  have hv : vector_search false o q (limit * 2) = [] := rfl
  rw [hv] at h1
  simp only [List.map_nil, List.nil_append] at h1
  rcases List.mem_map.1 h1 with ⟨r0, _, rfl⟩
  rfl

/-- Witness for `C4_vector_failure_safe`: disabled service, one matching
document, the single output record is keyword-tagged. -/
theorem C4_vector_failure_safe_witness :
    (⟨"entity_fact", "acme", "acme corp", 1, "2026-01-02", "general",
        "acme/items.json#1", 2/5, "keyword"⟩ : SearchResult) ∈
      hybrid_search_full false .networkError [sampleDocA] "acme corp" 5 0.6 0.4 ∧
    (⟨"entity_fact", "acme", "acme corp", 1, "2026-01-02", "general",
        "acme/items.json#1", 2/5, "keyword"⟩ : SearchResult).search_type = "keyword" := by
  have hmem : (⟨"entity_fact", "acme", "acme corp", 1, "2026-01-02", "general",
      "acme/items.json#1", 2/5, "keyword"⟩ : SearchResult) ∈
      hybrid_search_full false .networkError [sampleDocA] "acme corp" 5 0.6 0.4 := by
    have uA : sampleDocA = ⟨"entity_fact", "acme", "acme corp", "acme corp",
        "2026-01-02", "general", "acme/items.json#1"⟩ := rfl
    have hA : calculate_keyword_score (pyLower "acme corp") (pyLower "acme corp") = 1 := rfl
    norm_num [hybrid_search_full, hybrid_search, tag_results, vector_search,
      keyword_search, keyword_matches, hA, uA, deduplicate_results,
      deduplicate_results_aux, hybridSortLE, keywordSortLE,
      List.insertionSort, List.orderedInsert, List.filterMap_cons,
      List.filterMap_nil]
  exact ⟨hmem,
    C4_vector_failure_safe.2.2 .networkError [sampleDocA] "acme corp" 5 0.6 0.4 _ hmem⟩

/-- **C10** — the keyword path sorts its matching results by score
*ascending* (among equal scores by timestamp descending — the stable
descending sort on the key `(-score, timestamp)`) and then truncates to
the first `limit` entries, so when more than `limit` items match it is the
highest-scoring matches that are dropped before fusion sees them: every
kept record's score is at most every dropped record's score. -/
theorem C10_keyword_truncation (docs : List KWDoc) (query : String) (limit : ℕ) :
    keyword_search docs query limit =
      (List.insertionSort keywordSortLE (keyword_matches docs query)).take limit ∧
    (keyword_search docs query limit).Pairwise keywordSortLE ∧
    (∀ a ∈ keyword_search docs query limit,
      ∀ b ∈ (List.insertionSort keywordSortLE (keyword_matches docs query)).drop limit,
        a.score ≤ b.score) := by
  refine ⟨rfl, ?_, ?_⟩
  · exact (List.sorted_insertionSort keywordSortLE _).sublist (List.take_sublist _ _)
  · intro a ha b hb
    have hs := List.sorted_insertionSort keywordSortLE (keyword_matches docs query)
    rw [← List.take_append_drop limit
      (List.insertionSort keywordSortLE (keyword_matches docs query))] at hs
    have hcross := (List.pairwise_append.1 hs).2.2 a ha b hb
    rcases hcross with h | ⟨h, _⟩
    · exact h.le
    · exact h.le

/-- Witness for `C10_keyword_truncation`: two matching documents with
scores `1` and `3/4`, `limit = 1`; the kept record is the *lower*-scoring
one and the dropped record the higher-scoring one. -/
theorem C10_keyword_truncation_witness :
    (⟨"entity_fact", "acme", "acme only here", 3/4, "2026-01-01", "general",
        "acme/items.json#2", 0, ""⟩ : SearchResult) ∈
      keyword_search [sampleDocA, sampleDocB] "acme corp" 1 ∧
    (⟨"entity_fact", "acme", "acme corp", 1, "2026-01-02", "general",
        "acme/items.json#1", 0, ""⟩ : SearchResult) ∈
      (List.insertionSort keywordSortLE
        (keyword_matches [sampleDocA, sampleDocB] "acme corp")).drop 1 ∧
    (⟨"entity_fact", "acme", "acme only here", 3/4, "2026-01-01", "general",
        "acme/items.json#2", 0, ""⟩ : SearchResult).score ≤
      (⟨"entity_fact", "acme", "acme corp", 1, "2026-01-02", "general",
        "acme/items.json#1", 0, ""⟩ : SearchResult).score := by
  have uA : sampleDocA = ⟨"entity_fact", "acme", "acme corp", "acme corp",
      "2026-01-02", "general", "acme/items.json#1"⟩ := rfl
  have uB : sampleDocB = ⟨"entity_fact", "acme", "acme only here", "acme only here",
      "2026-01-01", "general", "acme/items.json#2"⟩ := rfl
  have hA : calculate_keyword_score (pyLower "acme corp") (pyLower "acme corp") = 1 := rfl
  have hBmin : calculate_keyword_score (pyLower "acme only here") (pyLower "acme corp") =
      min (((1 : ℕ) : ℚ) / ((2 : ℕ) : ℚ) + ((1 : ℕ) : ℚ) / ((2 : ℕ) : ℚ) * (1/2)) 1 := rfl
  have hB : calculate_keyword_score (pyLower "acme only here") (pyLower "acme corp") = 3/4 := by
    rw [hBmin]; norm_num
  have hmem1 : (⟨"entity_fact", "acme", "acme only here", 3/4, "2026-01-01", "general",
      "acme/items.json#2", 0, ""⟩ : SearchResult) ∈
      keyword_search [sampleDocA, sampleDocB] "acme corp" 1 := by
    norm_num [keyword_search, keyword_matches, hA, hB, uA, uB,
      keywordSortLE, List.insertionSort, List.orderedInsert,
      List.filterMap_cons, List.filterMap_nil]
  have hmem2 : (⟨"entity_fact", "acme", "acme corp", 1, "2026-01-02", "general",
      "acme/items.json#1", 0, ""⟩ : SearchResult) ∈
      (List.insertionSort keywordSortLE
        (keyword_matches [sampleDocA, sampleDocB] "acme corp")).drop 1 := by
    norm_num [keyword_matches, hA, hB, uA, uB,
      keywordSortLE, List.insertionSort, List.orderedInsert,
      List.filterMap_cons, List.filterMap_nil]
  exact ⟨hmem1, hmem2,
    (C10_keyword_truncation [sampleDocA, sampleDocB] "acme corp" 1).2.2 _ hmem1 _ hmem2⟩

/-! ## Theorems: relationship idempotence (claim C6) -/

/-- **C6** — when no edge with the triple `(from, to, relation)` is
stored, the first `add_relationship` call appends the edge and returns
`true`, after which exactly one edge with that triple is stored; a second
call with the same triple is a no-op that returns `added = false` and
leaves the edge set unchanged. -/
theorem C6_relationship_idempotence (patterns : List Relationship)
    (f t r s1 s2 : String)
    (hnew : patterns.filter (fun ex =>
      ex.from_ == f && ex.to_ == t && ex.relation == r) = []) :
    add_relationship patterns f t r s1 =
      (patterns ++ [⟨f, t, r, some s1, none⟩], true) ∧
    (add_relationship patterns f t r s1).1.filter (fun ex =>
      ex.from_ == f && ex.to_ == t && ex.relation == r) =
      [⟨f, t, r, some s1, none⟩] ∧
    add_relationship (add_relationship patterns f t r s1).1 f t r s2 =
      ((add_relationship patterns f t r s1).1, false) := by
  have hforall := List.filter_eq_nil_iff.1 hnew
  have hany : patterns.any (fun ex =>
      ex.from_ == f && ex.to_ == t && ex.relation == r) = false :=
    List.any_eq_false.2 hforall
  have hfirst : add_relationship patterns f t r s1 =
      (patterns ++ [⟨f, t, r, some s1, none⟩], true) := by
    unfold add_relationship
    rw [hany]
    simp
  refine ⟨hfirst, ?_, ?_⟩
  · rw [hfirst]
    simp [List.filter_append, hnew]
  · rw [hfirst]
    unfold add_relationship
    rw [List.any_append]
    simp

/-- Witness for `C6_relationship_idempotence` on the empty edge set. -/
theorem C6_relationship_idempotence_witness :
    (([] : List Relationship).filter (fun ex =>
      ex.from_ == "A" && ex.to_ == "B" && ex.relation == "knows") = []) ∧
    (add_relationship [] "A" "B" "knows" "2026-01-01" =
      ([⟨"A", "B", "knows", some "2026-01-01", none⟩], true) ∧
     (add_relationship [] "A" "B" "knows" "2026-01-01").1.filter (fun ex =>
       ex.from_ == "A" && ex.to_ == "B" && ex.relation == "knows") =
       [⟨"A", "B", "knows", some "2026-01-01", none⟩] ∧
     add_relationship (add_relationship [] "A" "B" "knows" "2026-01-01").1
       "A" "B" "knows" "2026-02-02" =
       ((add_relationship [] "A" "B" "knows" "2026-01-01").1, false)) :=
  ⟨rfl, C6_relationship_idempotence [] "A" "B" "knows" "2026-01-01" "2026-02-02" rfl⟩

/-! ## Theorems: graph traversal (claims C2, C5) -/

/-- Source endpoints of edges are graph nodes. -/
theorem mem_nodesOf_from {edges : List Relationship} {e : Relationship}
    (he : e ∈ edges) : e.from_ ∈ nodesOf edges := by
  unfold nodesOf
  rw [List.mem_toFinset, List.mem_append]
  exact Or.inl (List.mem_map_of_mem _ he)

/-- Target endpoints of edges are graph nodes. -/
theorem mem_nodesOf_to {edges : List Relationship} {e : Relationship}
    (he : e ∈ edges) : e.to_ ∈ nodesOf edges := by
  unfold nodesOf
  rw [List.mem_toFinset, List.mem_append]
  exact Or.inr (List.mem_map_of_mem _ he)

/-- Membership in a guarded outbound adjacency list. -/
theorem mem_ite_outEdges {edges : List Relationship} {c : String} {P : Prop}
    [Decidable P] {e : Relationship}
    (he : e ∈ (if P then outEdges edges c else [])) :
    e ∈ edges ∧ e.from_ = c ∧ P := by
  by_cases hP : P
  · rw [if_pos hP] at he
    unfold outEdges at he
    refine ⟨List.mem_of_mem_filter he, ?_, hP⟩
    have h2 := List.of_mem_filter he
    simpa using h2
  · rw [if_neg hP] at he
    cases he

/-- Membership in a guarded inbound adjacency list. -/
theorem mem_ite_inEdges {edges : List Relationship} {c : String} {P : Prop}
    [Decidable P] {e : Relationship}
    (he : e ∈ (if P then inEdges edges c else [])) :
    e ∈ edges ∧ e.to_ = c ∧ P := by
  by_cases hP : P
  · rw [if_pos hP] at he
    unfold inEdges at he
    refine ⟨List.mem_of_mem_filter he, ?_, hP⟩
    have h2 := List.of_mem_filter he
    simpa using h2
  · rw [if_neg hP] at he
    cases he

/-- Dropping the queue head strictly decreases the loop measure. -/
theorem travM_tail_lt (edges : List Relationship) (p : String × ℕ)
    (rest : List (String × ℕ)) (visited : List String) :
    travM edges rest visited < travM edges (p :: rest) visited := by
  unfold travM
  have hq : queueNodes rest ⊆ queueNodes (p :: rest) := by
    simp only [queueNodes, List.map_cons, List.toFinset_cons]
    exact Finset.subset_insert _ _
  have hsub : (nodesOf edges ∪ queueNodes rest) \ visited.toFinset ⊆
      (nodesOf edges ∪ queueNodes (p :: rest)) \ visited.toFinset :=
    Finset.sdiff_subset_sdiff (Finset.union_subset_union (subset_refl _) hq)
      (subset_refl _)
  have h2 := Nat.mul_le_mul_right (2 * edges.length + 1) (Finset.card_le_card hsub)
  simp only [List.length_cons]
  linarith [h2]

/-- Visiting a fresh node strictly decreases the loop measure, provided
the newly enqueued nodes are graph nodes and at most `2E` many. -/
theorem travM_visit_lt (edges : List Relationship) (current : String) (depth : ℕ)
    (rest : List (String × ℕ)) (visited : List String) (news : List String)
    (hcur : current ∉ visited)
    (hnews : ∀ x ∈ news, x ∈ nodesOf edges)
    (hlen : news.length ≤ 2 * edges.length) :
    travM edges (rest ++ news.map (fun n => (n, depth + 1))) (visited ++ [current])
      < travM edges ((current, depth) :: rest) visited := by
  unfold travM
  have hS : nodesOf edges ∪ queueNodes (rest ++ news.map (fun n => (n, depth + 1))) ⊆
      nodesOf edges ∪ queueNodes ((current, depth) :: rest) := by
    intro x hx
    rcases Finset.mem_union.1 hx with hx | hx
    · exact Finset.mem_union_left _ hx
    · unfold queueNodes at hx
      rw [List.mem_toFinset, List.map_append, List.mem_append] at hx
      rcases hx with hx | hx
      · apply Finset.mem_union_right
        unfold queueNodes
        rw [List.mem_toFinset, List.map_cons]
        exact List.mem_cons_of_mem _ hx
      · rw [List.map_map] at hx
        rcases List.mem_map.1 hx with ⟨y, hy, heq⟩
        have hyx : y = x := heq
        exact Finset.mem_union_left _ (hyx ▸ hnews y hy)
  have hVsub : visited.toFinset ⊆ (visited ++ [current]).toFinset := by
    rw [List.toFinset_append]
    exact Finset.subset_union_left
  have hsub : (nodesOf edges ∪ queueNodes (rest ++ news.map (fun n => (n, depth + 1)))) \
      (visited ++ [current]).toFinset ⊆
      (nodesOf edges ∪ queueNodes ((current, depth) :: rest)) \ visited.toFinset :=
    Finset.sdiff_subset_sdiff hS hVsub
  have hwit_in : current ∈
      (nodesOf edges ∪ queueNodes ((current, depth) :: rest)) \ visited.toFinset := by
    rw [Finset.mem_sdiff]
    constructor
    · apply Finset.mem_union_right
      unfold queueNodes
      rw [List.mem_toFinset, List.map_cons]
      exact List.mem_cons_self _ _
    · rw [List.mem_toFinset]
      exact hcur
  have hwit_out : current ∉
      (nodesOf edges ∪ queueNodes (rest ++ news.map (fun n => (n, depth + 1)))) \
        (visited ++ [current]).toFinset := by
    intro hmem
    apply (Finset.mem_sdiff.1 hmem).2
    rw [List.toFinset_append]
    apply Finset.mem_union_right
    simp
  have hss := (Finset.ssubset_iff_of_subset hsub).2 ⟨current, hwit_in, hwit_out⟩
  have hcard := Finset.card_lt_card hss
  have h2 := Nat.mul_le_mul_right (2 * edges.length + 1) hcard
  rw [Nat.succ_mul] at h2
  simp only [List.length_append, List.length_map, List.length_cons]
  linarith [h2]

/-- Newly enqueued endpoints (filtered edge endpoints) are graph nodes. -/
theorem news_mem_nodesOf (edges : List Relationship) (current direction : String)
    (visited' : List String) :
    ∀ x ∈ ((if direction = "both" ∨ direction = "out"
              then outEdges edges current else []).map Relationship.to_).filter
            (fun t => ¬ t ∈ visited') ++
          ((if direction = "both" ∨ direction = "in"
              then inEdges edges current else []).map Relationship.from_).filter
            (fun s => ¬ s ∈ visited'),
      x ∈ nodesOf edges := by
  intro x hx
  rcases List.mem_append.1 hx with hx | hx
  · have hx2 := List.mem_of_mem_filter hx
    rcases List.mem_map.1 hx2 with ⟨e, he, rfl⟩
    exact mem_nodesOf_to (mem_ite_outEdges he).1
  · have hx2 := List.mem_of_mem_filter hx
    rcases List.mem_map.1 hx2 with ⟨e, he, rfl⟩
    exact mem_nodesOf_from (mem_ite_inEdges he).1

/-- At most `2E` nodes are enqueued per visit. -/
theorem news_length_le (edges : List Relationship) (current direction : String)
    (visited' : List String) :
    ((((if direction = "both" ∨ direction = "out"
          then outEdges edges current else []).map Relationship.to_).filter
        (fun t => ¬ t ∈ visited')) ++
     (((if direction = "both" ∨ direction = "in"
          then inEdges edges current else []).map Relationship.from_).filter
        (fun s => ¬ s ∈ visited'))).length ≤ 2 * edges.length := by
  rw [List.length_append]
  have h1 : (((if direction = "both" ∨ direction = "out"
      then outEdges edges current else []).map Relationship.to_).filter
      (fun t => ¬ t ∈ visited')).length ≤ edges.length := by
    refine le_trans (List.length_filter_le _ _) ?_
    rw [List.length_map]
    by_cases hP : direction = "both" ∨ direction = "out"
    · rw [if_pos hP]
      exact List.length_filter_le _ _
    · rw [if_neg hP]
      simp
  have h2 : (((if direction = "both" ∨ direction = "in"
      then inEdges edges current else []).map Relationship.from_).filter
      (fun s => ¬ s ∈ visited')).length ≤ edges.length := by
    refine le_trans (List.length_filter_le _ _) ?_
    rw [List.length_map]
    by_cases hP : direction = "both" ∨ direction = "in"
    · rw [if_pos hP]
      exact List.length_filter_le _ _
    · rw [if_neg hP]
      simp
  omega

/-- With fuel exceeding the loop measure, the BFS loop reaches the empty
queue: the Python `while queue:` loop terminates. -/
theorem traverseAuxF_isSome (edges : List Relationship) (max_depth : ℕ)
    (direction : String) :
    ∀ (fuel : ℕ) (q : List (String × ℕ)) (visited : List String)
      (conns : List (ℕ × Connection)),
      travM edges q visited < fuel →
      (traverseAuxF edges max_depth direction fuel q visited conns).isSome = true := by
  intro fuel
  induction fuel with
  | zero => intro q v c h; omega
  | succ f ih =>
    intro q v c h
    rcases q with _ | ⟨⟨current, depth⟩, rest⟩
    · simp [traverseAuxF]
    · simp only [traverseAuxF]
      split
      · apply ih
        have := travM_tail_lt edges (current, depth) rest v
        omega
      · rename_i hcond
        have hcur : current ∉ v := fun hmem => hcond (Or.inl hmem)
        apply ih
        have hlt := travM_visit_lt edges current depth rest v
          ((((if direction = "both" ∨ direction = "out"
              then outEdges edges current else []).map Relationship.to_).filter
              (fun t => ¬ t ∈ v ++ [current])) ++
           (((if direction = "both" ∨ direction = "in"
              then inEdges edges current else []).map Relationship.from_).filter
              (fun s => ¬ s ∈ v ++ [current])))
          hcur (news_mem_nodesOf edges current direction (v ++ [current]))
          (news_length_le edges current direction (v ++ [current]))
        omega

/-- The initial loop measure is below the fuel `initFuel`. -/
theorem travM_init_lt (edges : List Relationship) (s : String) :
    travM edges [(s, 0)] [] < initFuel edges := by
  unfold travM initFuel
  have h2 : (nodesOf edges).card ≤ 2 * edges.length := by
    unfold nodesOf
    refine le_trans (List.toFinset_card_le _) ?_
    rw [List.length_append, List.length_map, List.length_map]
    omega
  have h3 : (queueNodes [(s, 0)]).card ≤ 1 := by
    unfold queueNodes
    simp
  have h1 : ((nodesOf edges ∪ queueNodes [(s, 0)]) \
      ([] : List String).toFinset).card ≤ 2 * edges.length + 1 := by
    rw [List.toFinset_nil, Finset.sdiff_empty]
    refine le_trans (Finset.card_union_le _ _) ?_
    omega
  have h4 := Nat.mul_le_mul_right (2 * edges.length + 1) h1
  simp only [List.length_singleton]
  linarith [h4]

/-- Reachability is upward closed in one extra step. -/
theorem reachN_succ {edges : List Relationship} {direction start : String}
    {n : ℕ} {x : String}
    (h : reachN edges direction start n x = true) :
    reachN edges direction start (n + 1) x = true := by
  rw [reachN, h]
  exact Bool.true_or _

/-- Reachability within `n` steps implies reachability within `m ≥ n`. -/
theorem reachN_mono {edges : List Relationship} {direction start : String}
    {x : String} {n m : ℕ} (hnm : n ≤ m)
    (h : reachN edges direction start n x = true) :
    reachN edges direction start m x = true := by
  induction m with
  | zero =>
    have hn : n = 0 := Nat.le_zero.1 hnm
    rw [← hn]
    exact h
  | succ k ih =>
    rcases Nat.lt_or_ge n (k + 1) with hlt | hge
    · exact reachN_succ (ih (Nat.lt_succ_iff.1 hlt))
    · have hn : n = k + 1 := le_antisymm hnm hge
      rw [← hn]
      exact h

/-- Following an edge forward extends reachability by one step when the
direction includes `out`. -/
theorem reachN_step_out {edges : List Relationship} {direction start : String}
    {n : ℕ} {e : Relationship}
    (he : e ∈ edges) (hdir : direction = "both" ∨ direction = "out")
    (hr : reachN edges direction start n e.from_ = true) :
    reachN edges direction start (n + 1) e.to_ = true := by
  rw [reachN, Bool.or_eq_true]
  right
  apply List.any_eq_true.2
  refine ⟨e, he, ?_⟩
  rw [Bool.or_eq_true]
  left
  rcases hdir with h | h <;> subst h <;> simp [hr]

/-- Following an edge backward extends reachability by one step when the
direction includes `in`. -/
theorem reachN_step_in {edges : List Relationship} {direction start : String}
    {n : ℕ} {e : Relationship}
    (he : e ∈ edges) (hdir : direction = "both" ∨ direction = "in")
    (hr : reachN edges direction start n e.to_ = true) :
    reachN edges direction start (n + 1) e.from_ = true := by
  rw [reachN, Bool.or_eq_true]
  right
  apply List.any_eq_true.2
  refine ⟨e, he, ?_⟩
  rw [Bool.or_eq_true]
  right
  rcases hdir with h | h <;> subst h <;> simp [hr]

/-- BFS invariant: if every queued entry `(node, d)` satisfies
`reachN d node` and every accumulated record satisfies `ConnOK`, then
every record of the final output satisfies `ConnOK`. -/
theorem traverseAuxF_connOK (edges : List Relationship) (max_depth : ℕ)
    (direction start : String) :
    ∀ (fuel : ℕ) (q : List (String × ℕ)) (visited : List String)
      (conns : List (ℕ × Connection))
      (res : List (ℕ × Connection) × List String),
      traverseAuxF edges max_depth direction fuel q visited conns = some res →
      (∀ p ∈ q, reachN edges direction start p.2 p.1 = true) →
      (∀ p ∈ conns, ConnOK edges direction start max_depth p.1 p.2) →
      ∀ p ∈ res.1, ConnOK edges direction start max_depth p.1 p.2 := by
  intro fuel
  induction fuel with
  | zero =>
    intro q v c res heq
    simp [traverseAuxF] at heq
  | succ f ih =>
    intro q v c res heq hq hc
    rcases q with _ | ⟨⟨current, depth⟩, rest⟩
    · simp only [traverseAuxF, Option.some.injEq] at heq
      rw [← heq]
      exact hc
    · simp only [traverseAuxF] at heq
      split at heq
      · exact ih _ _ _ _ heq (fun p hp => hq p (List.mem_cons_of_mem _ hp)) hc
      · rename_i hcond
        have hcur : current ∉ v := fun hmem => hcond (Or.inl hmem)
        have hdepth : depth ≤ max_depth :=
          Nat.not_lt.1 (fun hlt => hcond (Or.inr hlt))
        have hcurrent := hq (current, depth) (List.mem_cons_self _ _)
        refine ih _ _ _ _ heq ?_ ?_
        · intro p hp
          rcases List.mem_append.1 hp with hp | hp
          · exact hq p (List.mem_cons_of_mem _ hp)
          · rcases List.mem_map.1 hp with ⟨nnode, hn, rfl⟩
            show reachN edges direction start (depth + 1) nnode = true
            rcases List.mem_append.1 hn with hn | hn
            · have hn2 := List.mem_of_mem_filter hn
              rcases List.mem_map.1 hn2 with ⟨e, he, rfl⟩
              obtain ⟨he1, he2, he3⟩ := mem_ite_outEdges he
              exact reachN_step_out he1 he3 (by rw [he2]; exact hcurrent)
            · have hn2 := List.mem_of_mem_filter hn
              rcases List.mem_map.1 hn2 with ⟨e, he, rfl⟩
              obtain ⟨he1, he2, he3⟩ := mem_ite_inEdges he
              exact reachN_step_in he1 he3 (by rw [he2]; exact hcurrent)
        · intro p hp
          rcases List.mem_append.1 hp with hp | hp
          · rcases List.mem_append.1 hp with hp | hp
            · exact hc p hp
            · rcases List.mem_map.1 hp with ⟨e, he, rfl⟩
              obtain ⟨he1, he2, he3⟩ := mem_ite_outEdges he
              refine ⟨hdepth, Or.inl ⟨rfl, ?_, ?_⟩⟩
              · exact hcurrent
              · exact reachN_step_out he1 he3 (by rw [he2]; exact hcurrent)
          · rcases List.mem_map.1 hp with ⟨e, he, rfl⟩
            obtain ⟨he1, he2, he3⟩ := mem_ite_inEdges he
            refine ⟨hdepth, Or.inr ⟨rfl, ?_, ?_⟩⟩
            · exact hcurrent
            · exact reachN_step_in he1 he3 (by rw [he2]; exact hcurrent)

/-- BFS invariant: the visited list never repeats an entity. -/
theorem traverseAuxF_nodup (edges : List Relationship) (max_depth : ℕ)
    (direction : String) :
    ∀ (fuel : ℕ) (q : List (String × ℕ)) (visited : List String)
      (conns : List (ℕ × Connection))
      (res : List (ℕ × Connection) × List String),
      traverseAuxF edges max_depth direction fuel q visited conns = some res →
      visited.Nodup → res.2.Nodup := by
  intro fuel
  induction fuel with
  | zero =>
    intro q v c res heq
    simp [traverseAuxF] at heq
  | succ f ih =>
    intro q v c res heq hv
    rcases q with _ | ⟨⟨current, depth⟩, rest⟩
    · simp only [traverseAuxF, Option.some.injEq] at heq
      rw [← heq]
      exact hv
    · simp only [traverseAuxF] at heq
      split at heq
      · exact ih _ _ _ _ heq hv
      · rename_i hcond
        have hcur : current ∉ v := fun hmem => hcond (Or.inl hmem)
        refine ih _ _ _ _ heq ?_
        rw [List.nodup_append]
        exact ⟨hv, List.nodup_singleton _, by
          intro a ha hamem
          rw [List.mem_singleton] at hamem
          exact hcur (hamem ▸ ha)⟩

/-- **C2 counterexample** — the claim "no Connection in the result has a
from/to node whose shortest-path distance from start exceeds `maxDepth`"
is false: on the chain `A → B → C` with `maxDepth = 1` (direction `out`)
the code *does* expand node `B`, which was discovered exactly at depth 1,
and emits the connection `B → C` although `C` is at distance 2. -/
theorem C2_counterexample :
    ¬ (∀ p ∈ traverse_connections chainEdges "A" 1 "out",
        reachN chainEdges "out" "A" 1 p.2.from_ = true ∧
        reachN chainEdges "out" "A" 1 p.2.to_ = true) := by
  intro hall
  have hmem : (1, Connection.mk "B" "C" "outbound" "knows" none none) ∈
      traverse_connections chainEdges "A" 1 "out" := by decide
  have := (hall _ hmem).2
  have hfalse : reachN chainEdges "out" "A" 1 "C" = false := by decide
  rw [hfalse] at this
  cases this

/-- **C2 amended** — every record of `traverse_connections` is emitted at
a bucket depth `d ≤ maxDepth`; its *expanded* endpoint (the `from` node of
an outbound record, the `to` node of an inbound record) is within
shortest-path distance `maxDepth` of the start, and its other endpoint is
within distance `maxDepth + 1`: nodes discovered exactly at depth
`maxDepth` are expanded (only nodes beyond `maxDepth` are not), so edges
ending one step past the depth bound do appear. -/
theorem C2_depth_bound (edges : List Relationship) (start : String)
    (max_depth : ℕ) (direction : String) :
    ∀ p ∈ traverse_connections edges start max_depth direction,
      p.1 ≤ max_depth ∧
      ((p.2.type = "outbound" ∧
          reachN edges direction start max_depth p.2.from_ = true ∧
          reachN edges direction start (max_depth + 1) p.2.to_ = true) ∨
       (p.2.type = "inbound" ∧
          reachN edges direction start max_depth p.2.to_ = true ∧
          reachN edges direction start (max_depth + 1) p.2.from_ = true)) := by
  intro p hp
  unfold traverse_connections at hp
  have hs := traverseAuxF_isSome edges max_depth direction (initFuel edges)
    [(start, 0)] [] [] (travM_init_lt edges start)
  obtain ⟨res, hres⟩ := Option.isSome_iff_exists.1 hs
  obtain ⟨conns, vis⟩ := res
  rw [hres] at hp
  have hq0 : ∀ pq ∈ [((start : String), (0 : ℕ))],
      reachN edges direction start pq.2 pq.1 = true := by
    intro pq hpq
    rw [List.mem_singleton] at hpq
    subst hpq
    simp [reachN]
  have hinv := traverseAuxF_connOK edges max_depth direction start
    (initFuel edges) [(start, 0)] [] [] (conns, vis) hres hq0
    (by intro pc hpc; cases hpc) p hp
  obtain ⟨hd, hcase⟩ := hinv
  refine ⟨hd, ?_⟩
  rcases hcase with ⟨ht, h1, h2⟩ | ⟨ht, h1, h2⟩
  · exact Or.inl ⟨ht, reachN_mono hd h1, reachN_mono (by omega) h2⟩
  · exact Or.inr ⟨ht, reachN_mono hd h1, reachN_mono (by omega) h2⟩

/-- Witness for `C2_depth_bound` on the chain graph at `maxDepth = 1`:
applied to the emitted connection `B → C`. -/
theorem C2_depth_bound_witness :
    (1, Connection.mk "B" "C" "outbound" "knows" none none) ∈
      traverse_connections chainEdges "A" 1 "out" ∧
    (1 ≤ 1 ∧
     (((Connection.mk "B" "C" "outbound" "knows" none none).type = "outbound" ∧
        reachN chainEdges "out" "A" 1
          (Connection.mk "B" "C" "outbound" "knows" none none).from_ = true ∧
        reachN chainEdges "out" "A" 2
          (Connection.mk "B" "C" "outbound" "knows" none none).to_ = true) ∨
      ((Connection.mk "B" "C" "outbound" "knows" none none).type = "inbound" ∧
        reachN chainEdges "out" "A" 1
          (Connection.mk "B" "C" "outbound" "knows" none none).to_ = true ∧
        reachN chainEdges "out" "A" 2
          (Connection.mk "B" "C" "outbound" "knows" none none).from_ = true))) :=
  ⟨by decide,
   C2_depth_bound chainEdges "A" 1 "out"
     (1, Connection.mk "B" "C" "outbound" "knows" none none) (by decide)⟩

/-- **C5** — on every finite relationship graph the traversal terminates
(the fuelled loop reaches the empty queue within `initFuel edges`
iterations, so `traverseAuxF` returns `some`); the visited set guarantees
each entity is expanded at most once (the visited list never repeats an
entity); and on the cycle `A → B → A` with `maxDepth = 5` the traversal
terminates having visited each of `A` and `B` exactly once. -/
theorem C5_traversal_termination :
    (∀ (edges : List Relationship) (max_depth : ℕ) (direction start : String),
      (traverseAuxF edges max_depth direction (initFuel edges)
        [(start, 0)] [] []).isSome = true) ∧
    (∀ (edges : List Relationship) (start : String) (max_depth : ℕ)
      (direction : String),
      (traverse_visited edges start max_depth direction).Nodup) ∧
    traverse_visited cycleEdges "A" 5 "both" = ["A", "B"] ∧
    (traverse_visited cycleEdges "A" 5 "both").count "A" = 1 ∧
    (traverse_visited cycleEdges "A" 5 "both").count "B" = 1 := by
  refine ⟨?_, ?_, by decide, by decide, by decide⟩
  · intro edges max_depth direction start
    exact traverseAuxF_isSome edges max_depth direction (initFuel edges)
      [(start, 0)] [] [] (travM_init_lt edges start)
  · intro edges start max_depth direction
    unfold traverse_visited
    have hs := traverseAuxF_isSome edges max_depth direction (initFuel edges)
      [(start, 0)] [] [] (travM_init_lt edges start)
    obtain ⟨res, hres⟩ := Option.isSome_iff_exists.1 hs
    obtain ⟨conns, vis⟩ := res
    rw [hres]
    exact traverseAuxF_nodup edges max_depth direction (initFuel edges)
      [(start, 0)] [] [] (conns, vis) hres List.nodup_nil

end MemoryUpgrade
